import Mathlib

/-
Verification of the result-streaming pipeline of the `reporg` CLI tool
(a Go program that searches Git repositories with ripgrep and emits
TSV records with GitHub deep links).

The Go sources are shallowly embedded below.  Go strings are modelled
either as Lean `String` (where only textual content matters) or as
`List Nat` of byte values (where Go's byte-level semantics matter,
e.g. `len`, slicing and base64 decoding in `internal/search/ripgrep.go`).
External collaborators (the `git` binary, `ripgrep`, the OS working
directory and `filepath.Rel`) are abstracted as function parameters.
-/

namespace Reporg

set_option maxRecDepth 4096

/-! ## Byte-level line-text pipeline (`internal/search/ripgrep.go`) -/

/-- A byte is a line-ending byte: CR (13) or LF (10).  These are the bytes
`strings.TrimRight(lineText, "\r\n")` removes from the right end. -/
def isEOLByte (b : Nat) : Bool := b = 13 || b = 10

/-- Embedding of `strings.TrimRight(lineText, "\r\n")`: drop the maximal
trailing run of CR/LF bytes. -/
def trimTrailingEOL (s : List Nat) : List Nat :=
  (s.reverse.dropWhile isEOLByte).reverse

/-- The three-byte `"..."` marker appended on truncation. -/
def ellipsis : List Nat := [46, 46, 46]

/-- Embedding of the truncation step of `SearchRepo`:
`if opts.MaxLineLength > 0 && len(lineText) > opts.MaxLineLength
 { lineText = lineText[:opts.MaxLineLength] + "..." }`.
Go `len` is the byte length and `lineText[:M]` is a byte slice, so the
line text is a byte list here.  `MaxLineLength` is a Go `int`, hence `Int`. -/
def truncateLine (maxLen : Int) (s : List Nat) : List Nat :=
  if 0 < maxLen ∧ (s.length : Int) > maxLen then s.take maxLen.toNat ++ ellipsis
  else s

/-- A UTF-8 continuation byte (`10xxxxxx`). -/
def utf8ContByte (b : Nat) : Bool := 128 ≤ b && b ≤ 191

/-- RFC 3629 UTF-8 validity of a byte sequence (rejecting overlong forms,
surrogates and values above U+10FFFF). -/
def utf8Valid : List Nat → Bool
  | [] => true
  | b :: rest =>
    if b ≤ 127 then utf8Valid rest
    else if 194 ≤ b && b ≤ 223 then
      match rest with
      | c1 :: r => utf8ContByte c1 && utf8Valid r
      | [] => false
    else if b = 224 then
      match rest with
      | c1 :: c2 :: r => (160 ≤ c1 && c1 ≤ 191) && utf8ContByte c2 && utf8Valid r
      | _ => false
    else if 225 ≤ b && b ≤ 236 then
      match rest with
      | c1 :: c2 :: r => utf8ContByte c1 && utf8ContByte c2 && utf8Valid r
      | _ => false
    else if b = 237 then
      match rest with
      | c1 :: c2 :: r => (128 ≤ c1 && c1 ≤ 159) && utf8ContByte c2 && utf8Valid r
      | _ => false
    else if 238 ≤ b && b ≤ 239 then
      match rest with
      | c1 :: c2 :: r => utf8ContByte c1 && utf8ContByte c2 && utf8Valid r
      | _ => false
    else if b = 240 then
      match rest with
      | c1 :: c2 :: c3 :: r =>
        (144 ≤ c1 && c1 ≤ 191) && utf8ContByte c2 && utf8ContByte c3 && utf8Valid r
      | _ => false
    else if 241 ≤ b && b ≤ 243 then
      match rest with
      | c1 :: c2 :: c3 :: r =>
        utf8ContByte c1 && utf8ContByte c2 && utf8ContByte c3 && utf8Valid r
      | _ => false
    else if b = 244 then
      match rest with
      | c1 :: c2 :: c3 :: r =>
        (128 ≤ c1 && c1 ≤ 143) && utf8ContByte c2 && utf8ContByte c3 && utf8Valid r
      | _ => false
    else false

/-! ### Base64 (Go `encoding/base64` `StdEncoding.DecodeString`) -/

/-- Value of one character of the standard base64 alphabet. -/
def b64Val (c : Char) : Option Nat :=
  if 'A' ≤ c ∧ c ≤ 'Z' then some (c.toNat - 65)
  else if 'a' ≤ c ∧ c ≤ 'z' then some (c.toNat - 97 + 26)
  else if '0' ≤ c ∧ c ≤ '9' then some (c.toNat - 48 + 52)
  else if c = '+' then some 62
  else if c = '/' then some 63
  else none

/-- Decode base64 quantum groups.  A padded group (`xx==` or `xxx=`) is only
legal as the final group; any other shape (wrong length, alphabet violation,
misplaced padding) is an error, as in Go's `StdEncoding.DecodeString`. -/
def decodeB64Groups : List Char → Option (List Nat)
  | [] => some []
  | [c1, c2, '=', '='] => do
    let v1 ← b64Val c1
    let v2 ← b64Val c2
    some [v1 * 4 + v2 / 16]
  | [c1, c2, c3, '='] => do
    let v1 ← b64Val c1
    let v2 ← b64Val c2
    let v3 ← b64Val c3
    some [v1 * 4 + v2 / 16, (v2 % 16) * 16 + v3 / 4]
  | c1 :: c2 :: c3 :: c4 :: rest => do
    let v1 ← b64Val c1
    let v2 ← b64Val c2
    let v3 ← b64Val c3
    let v4 ← b64Val c4
    let tail ← decodeB64Groups rest
    some ([v1 * 4 + v2 / 16, (v2 % 16) * 16 + v3 / 4, (v3 % 4) * 64 + v4] ++ tail)
  | _ => none

/-- Embedding of `base64.StdEncoding.DecodeString`: newline characters are
ignored, then the input is decoded in groups of four; `none` models the
non-nil error return. -/
def decodeBase64 (s : String) : Option (List Nat) :=
  decodeB64Groups (s.toList.filter (fun c => c ≠ '\n' ∧ c ≠ '\r'))

/-! ### The match-event stream of `SearchRepo` -/

/-- Embedding of `search.SearchOptions`. -/
structure SearchOptions where
  ignoreCase : Bool
  globs : List String
  hidden : Bool
  fixedStrings : Bool
  maxLineLength : Int
  encoding : String

/-- Embedding of `search.Match`: `LineText` is a Go string, i.e. bytes. -/
structure Match where
  relPath : String
  lineNumber : Int
  lineText : List Nat
deriving DecidableEq

/-- One line of ripgrep's `--json` output after the two-stage JSON decode of
`SearchRepo`: a line that fails either `json.Unmarshal` is `invalid`, a
message whose `type` is not `"match"` is `other`, and a `"match"` message
carries the optional path text, optional UTF-8 line text (as bytes), optional
base64 bytes payload and the line number. -/
inductive RGEvent where
  | invalid : RGEvent
  | other : RGEvent
  | matchEv (path : Option String) (linesText : Option (List Nat))
      (linesBytes : Option String) (lineNumber : Int) : RGEvent

/-- Embedding of one iteration of the scan loop of `SearchRepo`
(`internal/search/ripgrep.go` lines 112-175): skip invalid lines and
non-match messages, skip match events without a path, relativize the path
(falling back to the absolute path when `filepath.Rel` fails, modelled by
the abstract `rel` returning `none`), extract the line text — preferring the
`text` field, else base64-decoding the `bytes` field (an undecodable payload
leaves the text empty), else empty — then strip trailing CR/LF and truncate.
Returns the `Match` handed to the callback, or `none` when the line is
skipped. -/
def processEvent (rel : String → String → Option String) (repoRoot : String)
    (opts : SearchOptions) (ev : RGEvent) : Option Match :=
  match ev with
  | .invalid => none
  | .other => none
  | .matchEv path linesText linesBytes lineNumber =>
    match path with
    | none => none
    | some absPath =>
      let relPath := (rel repoRoot absPath).getD absPath
      let raw : List Nat :=
        match linesText with
        | some t => t
        | none =>
          match linesBytes with
          | some payload => (decodeBase64 payload).getD []
          | none => []
      let text := truncateLine opts.maxLineLength (trimTrailingEOL raw)
      some ⟨relPath, lineNumber, text⟩

/-- The matches yielded to the callback over a whole event stream. -/
def searchRepoMatches (rel : String → String → Option String) (repoRoot : String)
    (opts : SearchOptions) (events : List RGEvent) : List Match :=
  events.filterMap (processEvent rel repoRoot opts)

/-- Embedding of the tail of `SearchRepo` (`internal/search/ripgrep.go`
lines 181-189): after the stream is drained, `cmd.Wait` is checked.  Exit
code 0 gives a nil error from `Wait`; exit code 1 (ripgrep's "no matches
found" code) is treated as success; any other code is the
`"ripgrep failed"` error.  The result carries the matches already yielded
to the callback. -/
def searchRepoRun (rel : String → String → Option String) (repoRoot : String)
    (opts : SearchOptions) (events : List RGEvent) (exitCode : Nat) :
    Except String (List Match) :=
  let ms := searchRepoMatches rel repoRoot opts events
  if exitCode = 0 then .ok ms
  else if exitCode = 1 then .ok ms
  else .error "ripgrep failed"

/-! ## GitHub URL parsing and building (`internal/git`, file of
`ParseGitHubURL` / `BuildGitHubFileURL`) -/

/-- The 19 characters of the anchored literal part of the HTTPS pattern
regex `^https://github\.com/([^/]+)/([^/]+?)(?:\.git)?$`. -/
def httpsHead : List Char := "https://github.com/".toList

/-- The 15 characters of the anchored literal part of the SSH pattern
regex `^git@github\.com:([^/]+)/([^/]+?)(?:\.git)?$`. -/
def sshHead : List Char := "git@github.com:".toList

/-- The four characters of the optional `.git` extension. -/
def gitExt : List Char := ".git".toList

/-- Split a character list at its first `/`, returning the (slash-free)
part before it and the part after it; `none` when there is no slash. -/
def breakSlash : List Char → Option (List Char × List Char)
  | [] => none
  | c :: cs =>
    if c = '/' then some ([], cs)
    else (breakSlash cs).map (fun p => (c :: p.1, p.2))

/-- The effect of the non-greedy group `([^/]+?)` followed by `(?:\.git)?$`:
the shortest repo-name match is taken, so one trailing `.git` is stripped
whenever what remains is still non-empty. -/
def stripGitExt (r : List Char) : List Char :=
  if 4 < r.length ∧ r.reverse.take 4 = gitExt.reverse then (r.reverse.drop 4).reverse
  else r

/-- The common `([^/]+)/([^/]+?)(?:\.git)?$` tail of both URL patterns:
the remainder must consist of a non-empty slash-free owner, one `/`, and a
non-empty slash-free repo segment reaching the end of the string. -/
def parseOwnerRepo (l : List Char) : Option (String × String) :=
  (breakSlash l).bind (fun p =>
    if p.1 ≠ [] ∧ p.2 ≠ [] ∧ '/' ∉ p.2 then some (⟨p.1⟩, ⟨stripGitExt p.2⟩)
    else none)

/-- Embedding of `git.ParseGitHubURL`: try the HTTPS pattern, then the SSH
pattern; `none` models the `("", "", err)` error return (no partial
extraction). -/
def parseGitHubURL (s : String) : Option (String × String) :=
  if s.toList.take 19 = httpsHead then parseOwnerRepo (s.toList.drop 19)
  else if s.toList.take 15 = sshHead then parseOwnerRepo (s.toList.drop 15)
  else none

/-- The OS path separator; this development models the Unix build, where
`filepath.Separator` is `/`. -/
def pathSeparator : Char := '/'

/-- Embedding of `filepath.ToSlash`: replace each OS separator with `/`
(the identity on Unix, written out faithfully). -/
def filepathToSlash (s : String) : String :=
  ⟨s.toList.map (fun c => if c = pathSeparator then '/' else c)⟩

/-- Embedding of `git.BuildGitHubFileURL`:
`https://github.com/{owner}/{repo}/blob/{branch}/{path}#L{line}` with the
path slash-normalized and embedded without percent-encoding. -/
def buildGitHubFileURL (owner repo branch relPath : String) (lineNum : Int) : String :=
  "https://github.com/" ++ owner ++ "/" ++ repo ++ "/blob/" ++ branch ++ "/" ++
    filepathToSlash relPath ++ "#L" ++ toString lineNum

/-! ## Output formatting (`internal/output/tsv.go` and `main.go`) -/

/-- Embedding of `output.SearchResult`. -/
structure SearchResult where
  repository : String
  localPath : String
  matchedLine : String
  githubURL : String

/-- The character set of Go `unicode.IsSpace`, which
`strings.TrimSpace` trims from both ends. -/
def goIsSpace (c : Char) : Bool :=
  let n := c.toNat
  n = 32 || n = 9 || n = 10 || n = 11 || n = 12 || n = 13 ||
  n = 133 || n = 160 || n = 0x1680 || (0x2000 <= n && n <= 0x200a) ||
  n = 0x2028 || n = 0x2029 || n = 0x202f || n = 0x205f || n = 0x3000

/-- Embedding of `strings.TrimSpace`: drop leading and trailing
whitespace characters. -/
def goTrimSpace (s : String) : String :=
  ⟨((s.toList.dropWhile goIsSpace).reverse.dropWhile goIsSpace).reverse⟩

/-- Embedding of `output.sanitizeLine`: replace every tab, LF and CR with a
space, then trim leading/trailing whitespace. -/
def sanitizeLine (text : String) : String :=
  goTrimSpace ⟨text.toList.map (fun c =>
    if c = '\t' ∨ c = '\n' ∨ c = '\r' then ' ' else c)⟩

/-- One serialized TSV record:
`{Repository}\t{LocalPath}\t{sanitized MatchedLine}\t{GitHubURL}\n`. -/
def tsvLine (r : SearchResult) : String :=
  r.repository ++ "\t" ++ r.localPath ++ "\t" ++ sanitizeLine r.matchedLine ++
    "\t" ++ r.githubURL ++ "\n"

/-- Concatenation of a list of strings. -/
def concatAll (l : List String) : String := l.foldr (fun a b => a ++ b) ""

/-- The bytes `output.WriteTSV` leaves on the writer after its deferred
flush: the concatenation of the serialized records, with no header row. -/
def writeTSV (results : List SearchResult) : String :=
  concatAll (results.map tsvLine)

/-- Embedding of `main.go`'s `RepoContext` (the fields used for URLs). -/
structure RepoContext where
  owner : String
  repo : String
  branch : String

/-- Embedding of the match-to-result conversion inside `run`'s search
callback in `main.go`: repository `owner/repo`, locator `relPath:line`,
the matched text verbatim, and the built GitHub URL. -/
def formatResult (ctx : RepoContext) (relPath : String) (lineNum : Int)
    (lineText : String) : SearchResult :=
  { repository := ctx.owner ++ "/" ++ ctx.repo
    localPath := relPath ++ ":" ++ toString lineNum
    matchedLine := lineText
    githubURL := buildGitHubFileURL ctx.owner ctx.repo ctx.branch relPath lineNum }

/-- State of the streaming TSV writer: the contents already flushed to the
underlying sink, and the not-yet-flushed buffer. -/
structure SinkState where
  sink : String
  buf : String
deriving DecidableEq

/-- Modelled from the spec: the streaming `output.TSVWriter.Write` method.
The implementation file of `TSVWriter` is not among the provided sources —
only its tests and its caller in `main.go` are — so this follows spec §4.4:
serialize the record as tab-joined fields terminated by a newline, write it,
and flush the underlying sink after the record (a streaming sink, not a
buffer-and-flush-at-end design). -/
def tsvWriterWrite (st : SinkState) (r : SearchResult) : SinkState :=
  let written : SinkState := { st with buf := st.buf ++ tsvLine r }
  { sink := written.sink ++ written.buf, buf := "" }

/-- Processing a sequence of results through the streaming writer. -/
def tsvWriterRun (st : SinkState) (rs : List SearchResult) : SinkState :=
  rs.foldl tsvWriterWrite st

/-! ## Repository resolution (`internal/git/repo.go`) -/

/-- Split a character list into its `/`-separated components (the
separator occurrences themselves are dropped; empty components are kept,
as in splitting a string on `/`). -/
def splitSlashes : List Char → List (List Char)
  | [] => [[]]
  | c :: cs =>
    if c = '/' then [] :: splitSlashes cs
    else
      match splitSlashes cs with
      | [] => [[c]]
      | h :: t => (c :: h) :: t

/-- Process one path component for `filepath.Clean`: empty and `.`
components vanish; `..` pops the previous component when possible, is
dropped at the root, and is kept when the path is relative and nothing can
be popped; other components are appended. -/
def cleanStep (rooted : Bool) (acc : List (List Char)) (comp : List Char) :
    List (List Char) :=
  if comp = [] ∨ comp = ['.'] then acc
  else if comp = ['.', '.'] then
    match acc.getLast? with
    | some lastComp => if lastComp = ['.', '.'] then acc ++ [comp] else acc.dropLast
    | none => if rooted then acc else [comp]
  else acc ++ [comp]

/-- Model of Go `path/filepath.Clean` for Unix paths: lexical
simplification of `.`, `..` and repeated separators. -/
def goClean (s : String) : String :=
  let rooted := s.toList.take 1 = ['/']
  let comps := (splitSlashes s.toList).foldl (cleanStep rooted) []
  let body : List Char := List.intercalate ['/'] comps
  if rooted then ⟨'/' :: body⟩
  else if body = [] then "." else ⟨body⟩

/-- Model of Go `filepath.IsAbs` on Unix: the path starts with `/`. -/
def goIsAbs (s : String) : Bool := s.toList.take 1 = ['/']

/-- Model of Go `filepath.Join` of two elements on Unix: empty elements are
dropped, the rest joined with `/` and cleaned. -/
def goJoin (a b : String) : String :=
  if a = "" then goClean b
  else if b = "" then goClean a
  else goClean (a ++ "/" ++ b)

/-- Model of Go `filepath.Abs` on Unix: an absolute path is cleaned, a
relative one is joined to the working directory (an external input,
passed as `cwd`).  This is a purely lexical computation: the filesystem
is never consulted, so symbolic links are not resolved. -/
def unixAbs (cwd path : String) : String :=
  if goIsAbs path then goClean path else goJoin cwd path

/-- Embedding of the loop of `git.DeduplicateRepoPaths`
(`internal/git/repo.go` lines 62-79).  For each path: validate it is a
repository root (`ValidateRepoRoot` consults the `git` binary, abstracted
as `valid`; on failure the whole call errors), canonicalize it
(`filepath.Abs`, abstracted as `canon`), and append it to the output
unless its canonical form was already seen. -/
def dedupeGo (valid : String → Bool) (canon : String → String) :
    List String → List String → List String → Except String (List String)
  | [], _, unique => .ok unique
  | p :: ps, seen, unique =>
    if valid p then
      let a := canon p
      if a ∈ seen then dedupeGo valid canon ps seen unique
      else dedupeGo valid canon ps (a :: seen) (unique ++ [a])
    else .error p

/-- Embedding of `git.DeduplicateRepoPaths`, starting from empty
`seen`/`unique` state. -/
def deduplicateRepoPaths (valid : String → Bool) (canon : String → String)
    (paths : List String) : Except String (List String) :=
  dedupeGo valid canon paths [] []

/-- Reference first-occurrence deduplication, stated independently of the
code's seen-set loop: keep the head, then deduplicate the tail with all
copies of the head removed.  This follows the spec's description
"preserving first-occurrence order". -/
def specDedup : List String → List String
  | [] => []
  | x :: xs => x :: specDedup (xs.filter (fun y => y ≠ x))
termination_by l => l.length
decreasing_by
  simp only [List.length_cons]
  exact Nat.lt_succ_of_le (List.length_filter_le _ xs)

/-! ## Spec-side reference definitions -/

/-- What the spec sentence for claim C3 describes, following its words:
strip exactly one trailing line-ending sequence — CRLF (bytes 13, 10), or a
single LF, or a single CR — and nothing else. -/
def stripOneEOLSpec (s : List Nat) : List Nat :=
  if s.reverse.take 2 = [10, 13] then (s.reverse.drop 2).reverse
  else if s.reverse.take 1 = [10] ∨ s.reverse.take 1 = [13] then
    (s.reverse.drop 1).reverse
  else s

/-- Claim C3 as stated: for every extracted line text, the code's trailing
line-ending removal strips exactly the one trailing line-ending sequence
(so a text ending in several line-ending sequences keeps all but the
final one). -/
def ClaimC3 : Prop := ∀ s : List Nat, trimTrailingEOL s = stripOneEOLSpec s

/-- A legal owner or repository-name path segment of a remote URL: a
non-empty run of non-slash characters (the `[^/]+` character class of the
URL regexes). -/
def SegOK (l : List Char) : Prop := l ≠ [] ∧ '/' ∉ l

instance (l : List Char) : Decidable (SegOK l) :=
  inferInstanceAs (Decidable (l ≠ [] ∧ '/' ∉ l))

/-- The HTTPS remote-URL shape `https://github.com/{owner}/{name}`. -/
def httpsOf (o n : List Char) : String := ⟨httpsHead ++ (o ++ '/' :: n)⟩

/-- The SSH remote-URL shape `git@github.com:{owner}/{name}`. -/
def sshOf (o n : List Char) : String := ⟨sshHead ++ (o ++ '/' :: n)⟩

/-- A string is of one of the supported GitHub remote-URL shapes: an HTTPS
or SSH head followed by an owner segment, a slash, and a name segment
(an optional `.git` extension is itself part of a legal name segment). -/
def anyGitHubShape (s : String) : Prop :=
  ∃ o n : List Char, SegOK o ∧ SegOK n ∧ (s = httpsOf o n ∨ s = sshOf o n)

/-- Claim C6 as stated: for every remote URL of one of the four supported
shapes, `ParseGitHubURL` extracts the owner/name pair of the shape,
identically whether or not the `.git` suffix is present; and every URL of
any other shape or host yields the error return (no partial
extraction). -/
def ClaimC6 : Prop :=
  (∀ o n : List Char, SegOK o → SegOK n →
    parseGitHubURL (httpsOf o n) = some (⟨o⟩, ⟨n⟩) ∧
    parseGitHubURL (httpsOf o (n ++ gitExt)) = some (⟨o⟩, ⟨n⟩) ∧
    parseGitHubURL (sshOf o n) = some (⟨o⟩, ⟨n⟩) ∧
    parseGitHubURL (sshOf o (n ++ gitExt)) = some (⟨o⟩, ⟨n⟩)) ∧
  (∀ s : String, ¬ anyGitHubShape s → parseGitHubURL s = none)

/-- The pure deduplication loop of `DeduplicateRepoPaths` on the already
canonicalized paths, with the `seen` set made explicit. -/
def dedupePure (seen : List String) : List String → List String
  | [] => []
  | a :: ms =>
    if a ∈ seen then dedupePure seen ms else a :: dedupePure (a :: seen) ms

lemma truncateLine_nil (maxLen : Int) : truncateLine maxLen [] = [] := by
  unfold truncateLine
  rw [if_neg]
  rintro ⟨h1, h2⟩
  simp at h2
  omega

lemma head?_dropWhile_false (p : Nat → Bool) (l : List Nat) :
    ∀ b ∈ (l.dropWhile p).head?, p b = false := by
  induction l with
  | nil => simp [List.dropWhile]
  | cons a t ih =>
    intro b hb
    by_cases hp : p a
    · rw [List.dropWhile_cons_of_pos hp] at hb
      exact ih b hb
    · rw [List.dropWhile_cons_of_neg hp] at hb
      simp only [List.head?_cons, Option.mem_def, Option.some.injEq] at hb
      subst hb
      simpa using hp

lemma tsvWriterRun_sink (rs : List SearchResult) (s : String) :
    tsvWriterRun ⟨s, ""⟩ rs = ⟨s ++ concatAll (rs.map tsvLine), ""⟩ := by
  induction rs generalizing s with
  | nil => simp [tsvWriterRun, concatAll]
  | cons r rest ih =>
    show tsvWriterRun (tsvWriterWrite ⟨s, ""⟩ r) rest = _
    have hw : tsvWriterWrite ⟨s, ""⟩ r = ⟨s ++ tsvLine r, ""⟩ := by
      simp [tsvWriterWrite]
    rw [hw, ih]
    show SinkState.mk ((s ++ tsvLine r) ++ concatAll (rest.map tsvLine)) "" = _
    rw [String.append_assoc]
    rfl

/-! ## Claims -/

/-- C1: a `NormalizedMatch` with relative path `main.go`, line number 10 and
line text `package main`, under the context owner `onozaty`, repo `reporg`,
branch `main`, formats and writes to exactly one record whose four fields
are `onozaty/reporg`, `main.go:10`, `package main` and
`https://github.com/onozaty/reporg/blob/main/main.go#L10`, serialized as
the four fields joined by single tabs and terminated by a single newline,
with no header row. -/
theorem C1_tsvRecordRoundTrip :
    writeTSV [formatResult ⟨"onozaty", "reporg", "main"⟩ "main.go" 10 "package main"] =
      "onozaty/reporg\tmain.go:10\tpackage main\thttps://github.com/onozaty/reporg/blob/main/main.go#L10\n" ∧
    (formatResult ⟨"onozaty", "reporg", "main"⟩ "main.go" 10 "package main").repository =
      "onozaty/reporg" ∧
    (formatResult ⟨"onozaty", "reporg", "main"⟩ "main.go" 10 "package main").localPath =
      "main.go:10" ∧
    sanitizeLine (formatResult ⟨"onozaty", "reporg", "main"⟩ "main.go" 10
      "package main").matchedLine = "package main" ∧
    (formatResult ⟨"onozaty", "reporg", "main"⟩ "main.go" 10 "package main").githubURL =
      "https://github.com/onozaty/reporg/blob/main/main.go#L10" := by
  refine ⟨?_, rfl, ?_, ?_, ?_⟩ <;> decide

/-- C2: the output sink is streaming — after the i-th record is processed,
the underlying sink already contains the serialized form of the first i
records (and the writer's buffer is empty, i.e. everything was flushed),
so a crash mid-run preserves all previously written records. -/
theorem C2_streamingSinkAfterEachRecord (rs : List SearchResult) (i : Nat) :
    (tsvWriterRun ⟨"", ""⟩ (rs.take i)).sink =
      concatAll ((rs.take i).map tsvLine) ∧
    (tsvWriterRun ⟨"", ""⟩ (rs.take i)).buf = "" := by
  rw [tsvWriterRun_sink]
  constructor
  · show "" ++ _ = _
    simp
  · rfl

/-- C3, counterexample: the claim that exactly one trailing line-ending
sequence is stripped is false — `strings.TrimRight(lineText, "\r\n")`
removes the whole trailing run, so the text `a\n\n` (bytes 97, 10, 10)
becomes `a`, not `a\n`. -/
theorem C3_counterexampleTrimAll : ¬ ClaimC3 :=
  fun h => absurd (h [97, 10, 10]) (by decide)

/-- C3, amended: the code strips the maximal trailing run of line-ending
bytes — the stripped suffix consists only of CR/LF bytes, nothing else is
removed, and the remaining text does not end in a CR/LF byte (so a text
ending in several line-ending sequences loses all of them, not just the
final one). -/
theorem C3_trimMaximalEOLRun (s : List Nat) :
    ∃ t : List Nat, s = trimTrailingEOL s ++ t ∧
      (∀ b ∈ t, isEOLByte b = true) ∧
      ∀ b ∈ (trimTrailingEOL s).getLast?, isEOLByte b = false := by
  refine ⟨(s.reverse.takeWhile isEOLByte).reverse, ?_, ?_, ?_⟩
  · unfold trimTrailingEOL
    rw [← List.reverse_append, List.takeWhile_append_dropWhile, List.reverse_reverse]
  · intro b hb
    rw [List.mem_reverse] at hb
    exact List.mem_takeWhile_imp hb
  · intro b hb
    unfold trimTrailingEOL at hb
    rw [List.getLast?_reverse] at hb
    exact head?_dropWhile_false isEOLByte s.reverse b hb

/-- C4: if the configured maximum line length M is positive and the
stripped text's byte length exceeds M, the yielded text is the first M
units of the text followed by the three-byte `...` marker (hence exactly
M + 3 units long, e.g. 53 for a 200-unit line with M = 50); text at or
under the limit, or any text when M = 0 (unlimited), is never modified. -/
theorem C4_truncationPolicy (maxLen : Int) (s : List Nat) :
    (0 < maxLen → (s.length : Int) > maxLen →
      truncateLine maxLen s = s.take maxLen.toNat ++ ellipsis ∧
      (truncateLine maxLen s).length = maxLen.toNat + 3) ∧
    ((s.length : Int) ≤ maxLen ∨ maxLen = 0 → truncateLine maxLen s = s) := by
  constructor
  · intro h1 h2
    have he : truncateLine maxLen s = s.take maxLen.toNat ++ ellipsis := by
      unfold truncateLine
      rw [if_pos ⟨h1, h2⟩]
    refine ⟨he, ?_⟩
    rw [he]
    simp only [List.length_append, List.length_take, ellipsis, List.length_cons,
      List.length_nil]
    omega
  · intro h
    unfold truncateLine
    rw [if_neg]
    rintro ⟨h1, h2⟩
    rcases h with h | h <;> omega

/-- Witness for C4 at a concrete input: a 200-byte line with limit 50
yields exactly 50 + 3 bytes, and a line at the limit is untouched. -/
theorem C4_truncationPolicy_witness :
    (truncateLine 50 (List.replicate 200 97)).length = (50 : Int).toNat + 3 ∧
    truncateLine 50 (List.replicate 50 97) = List.replicate 50 97 :=
  ⟨((C4_truncationPolicy 50 (List.replicate 200 97)).1 (by decide) (by decide)).2,
   (C4_truncationPolicy 50 (List.replicate 50 97)).2 (Or.inl (by decide))⟩

/-- C5: exit code 0 and the documented "no matches found" exit code 1 both
terminate `SearchRepo` normally with the (possibly empty or partial)
matches already yielded, never an error; every other exit code yields the
search-tool-failure error, even though matches were already handed to the
callback. -/
theorem C5_exitCodePolicy (rel : String → String → Option String)
    (repoRoot : String) (opts : SearchOptions) (events : List RGEvent)
    (exitCode : Nat) :
    (exitCode = 0 ∨ exitCode = 1 →
      searchRepoRun rel repoRoot opts events exitCode =
        .ok (searchRepoMatches rel repoRoot opts events)) ∧
    (exitCode ≠ 0 → exitCode ≠ 1 →
      searchRepoRun rel repoRoot opts events exitCode = .error "ripgrep failed") := by
  constructor
  · rintro (rfl | rfl) <;> simp [searchRepoRun]
  · intro h0 h1
    simp [searchRepoRun, h0, h1]

/-- Witness for C5 at concrete inputs: exit code 1 with an event stream
(one non-match event) succeeds with the empty match list; exit code 2
fails even though the stream was drained. -/
theorem C5_exitCodePolicy_witness :
    searchRepoRun (fun _ _ => none) "/repo" ⟨false, [], false, false, 0, "auto"⟩
      [RGEvent.other] 1 = .ok [] ∧
    searchRepoRun (fun _ _ => none) "/repo" ⟨false, [], false, false, 0, "auto"⟩
      [RGEvent.other] 2 = .error "ripgrep failed" :=
  ⟨((C5_exitCodePolicy (fun _ _ => none) "/repo" ⟨false, [], false, false, 0, "auto"⟩
      [RGEvent.other] 1).1 (Or.inr rfl)).trans rfl,
   (C5_exitCodePolicy (fun _ _ => none) "/repo" ⟨false, [], false, false, 0, "auto"⟩
      [RGEvent.other] 2).2 (by decide) (by decide)⟩

/-- C9: a match event that carries a path but whose line content is only an
undecodable base64 bytes payload is still yielded as a match with empty
line text — it is neither skipped nor turned into an error. -/
theorem C9_badBase64YieldsEmptyText (rel : String → String → Option String)
    (repoRoot : String) (opts : SearchOptions) (absPath payload : String)
    (lineNumber : Int) (hdec : decodeBase64 payload = none) :
    processEvent rel repoRoot opts
        (.matchEv (some absPath) none (some payload) lineNumber) =
      some ⟨(rel repoRoot absPath).getD absPath, lineNumber, []⟩ := by
  have h1 : processEvent rel repoRoot opts
      (.matchEv (some absPath) none (some payload) lineNumber) =
      some (Match.mk ((rel repoRoot absPath).getD absPath) lineNumber
        (truncateLine opts.maxLineLength
          (trimTrailingEOL ((decodeBase64 payload).getD [])))) := rfl
  rw [h1, hdec]
  rw [show trimTrailingEOL ((none : Option (List Nat)).getD []) = [] from rfl,
    truncateLine_nil]

/-- Witness for C9 at a concrete input: the payload `!!!!` is not valid
base64, and the event is still yielded with empty text. -/
theorem C9_badBase64YieldsEmptyText_witness :
    processEvent (fun _ _ => none) "/repo" ⟨false, [], false, false, 0, "auto"⟩
        (.matchEv (some "/repo/f.bin") none (some "!!!!") 3) =
      some ⟨"/repo/f.bin", 3, []⟩ :=
  C9_badBase64YieldsEmptyText (fun _ _ => none) "/repo"
    ⟨false, [], false, false, 0, "auto"⟩ "/repo/f.bin" "!!!!" 3 (by decide)

/-- C10: truncation measures length in bytes, not characters — whenever the
stripped text's byte length exceeds a positive limit M, the yielded text
is exactly the first M bytes followed by `...`; at a concrete input the
byte boundary falls inside the two-byte UTF-8 character `é` (bytes 195,
169), and the yielded bytes are not valid UTF-8. -/
theorem C10_truncationCountsBytes :
    (∀ (maxLen : Int) (s : List Nat), 0 < maxLen → (s.length : Int) > maxLen →
      truncateLine maxLen s = s.take maxLen.toNat ++ ellipsis) ∧
    utf8Valid [195, 169] = true ∧
    truncateLine 1 [195, 169] = [195, 46, 46, 46] ∧
    utf8Valid (truncateLine 1 [195, 169]) = false := by
  refine ⟨?_, by decide, by decide, by decide⟩
  intro maxLen s h1 h2
  unfold truncateLine
  rw [if_pos ⟨h1, h2⟩]

/-- Witness for C10 at a concrete input: a nine-byte Japanese text cut at
byte 7 splits the third three-byte character. -/
theorem C10_truncationCountsBytes_witness :
    truncateLine 7 [227, 129, 130, 227, 129, 132, 227, 129, 134] =
      [227, 129, 130, 227, 129, 132, 227, 129, 134].take (7 : Int).toNat ++ ellipsis :=
  C10_truncationCountsBytes.1 7 [227, 129, 130, 227, 129, 132, 227, 129, 134]
    (by decide) (by decide)

/-! ## URL-parsing lemmas and claim C6 -/

lemma breakSlash_append (o r : List Char) (ho : '/' ∉ o) :
    breakSlash (o ++ '/' :: r) = some (o, r) := by
  induction o with
  | nil => simp [breakSlash]
  | cons c cs ih =>
    have hc : ¬ c = '/' := fun h => ho (h ▸ List.mem_cons_self c cs)
    have hcs : '/' ∉ cs := fun h => ho (List.mem_cons_of_mem c h)
    simp [breakSlash, hc, ih hcs]

lemma breakSlash_some (l : List Char) (o r : List Char)
    (h : breakSlash l = some (o, r)) : l = o ++ '/' :: r ∧ '/' ∉ o := by
  induction l generalizing o r with
  | nil => simp [breakSlash] at h
  | cons c cs ih =>
    by_cases hc : c = '/'
    · subst hc
      simp only [breakSlash, if_pos rfl, Option.some.injEq, Prod.mk.injEq] at h
      obtain ⟨rfl, rfl⟩ := h
      simp
    · simp only [breakSlash, if_neg hc, Option.map_eq_some'] at h
      obtain ⟨⟨o1, r1⟩, hbs, heq⟩ := h
      cases heq
      obtain ⟨hcs, hno⟩ := ih o1 r1 hbs
      subst hcs
      refine ⟨rfl, ?_⟩
      intro hmem
      rcases List.mem_cons.mp hmem with h1 | h1
      · exact hc h1.symm
      · exact hno h1

lemma stripGitExt_append (n : List Char) (hn : n ≠ []) :
    stripGitExt (n ++ gitExt) = n := by
  have h4 : gitExt.reverse.length = 4 := rfl
  unfold stripGitExt
  rw [if_pos]
  · rw [List.reverse_append, List.drop_left' h4, List.reverse_reverse]
  · constructor
    · have h1 : 0 < n.length := List.length_pos.mpr hn
      have h2 : gitExt.length = 4 := rfl
      rw [List.length_append, h2]
      omega
    · rw [List.reverse_append, List.take_left' h4]

lemma stripGitExt_of_notGit (n : List Char) (h : n.reverse.take 4 ≠ gitExt.reverse) :
    stripGitExt n = n := by
  unfold stripGitExt
  rw [if_neg]
  rintro ⟨-, h2⟩
  exact h h2

lemma parseGitHubURL_mkHttps (rest : List Char) :
    parseGitHubURL ⟨httpsHead ++ rest⟩ = parseOwnerRepo rest := by
  have h19 : httpsHead.length = 19 := rfl
  unfold parseGitHubURL
  rw [show (String.mk (httpsHead ++ rest)).toList = httpsHead ++ rest from rfl]
  rw [List.take_left' h19, List.drop_left' h19, if_pos rfl]

lemma parseGitHubURL_mkSsh (rest : List Char) :
    parseGitHubURL ⟨sshHead ++ rest⟩ = parseOwnerRepo rest := by
  have h15 : sshHead.length = 15 := rfl
  have hne : (sshHead ++ rest).take 19 ≠ httpsHead := by
    intro h
    have h1 : ((sshHead ++ rest).take 19).head? = some 'g' := rfl
    rw [h] at h1
    exact absurd h1 (by decide)
  unfold parseGitHubURL
  rw [show (String.mk (sshHead ++ rest)).toList = sshHead ++ rest from rfl]
  rw [if_neg hne, List.take_left' h15, List.drop_left' h15, if_pos rfl]

lemma parseOwnerRepo_eval (o r : List Char) (ho : SegOK o) (hr : SegOK r) :
    parseOwnerRepo (o ++ '/' :: r) = some (⟨o⟩, ⟨stripGitExt r⟩) := by
  unfold parseOwnerRepo
  rw [breakSlash_append o r ho.2]
  rw [Option.some_bind]
  exact if_pos ⟨ho.1, hr.1, hr.2⟩

lemma parseOwnerRepo_some (l : List Char) (o n : String)
    (h : parseOwnerRepo l = some (o, n)) :
    ∃ ow r : List Char, l = ow ++ '/' :: r ∧ SegOK ow ∧ SegOK r := by
  unfold parseOwnerRepo at h
  cases hb : breakSlash l with
  | none => rw [hb, Option.none_bind] at h; cases h
  | some p =>
    rw [hb, Option.some_bind] at h
    by_cases hcond : p.1 ≠ [] ∧ p.2 ≠ [] ∧ '/' ∉ p.2
    · obtain ⟨hl, hno⟩ := breakSlash_some l p.1 p.2 (by rw [hb])
      exact ⟨p.1, p.2, hl, ⟨hcond.1, hno⟩, ⟨hcond.2.1, hcond.2.2⟩⟩
    · rw [if_neg hcond] at h
      cases h

lemma anyGitHubShape_of_parse (s : String) (o n : String)
    (h : parseGitHubURL s = some (o, n)) : anyGitHubShape s := by
  unfold parseGitHubURL at h
  by_cases h19 : s.toList.take 19 = httpsHead
  · rw [if_pos h19] at h
    obtain ⟨ow, r, hl, how, hrr⟩ := parseOwnerRepo_some _ o n h
    refine ⟨ow, r, how, hrr, Or.inl ?_⟩
    have hlist : s.toList = httpsHead ++ (ow ++ '/' :: r) := by
      conv_lhs => rw [← List.take_append_drop 19 s.toList]
      rw [h19, hl]
    exact (show s = (⟨s.toList⟩ : String) from rfl).trans
      (congrArg (fun t => (⟨t⟩ : String)) hlist)
  · rw [if_neg h19] at h
    by_cases h15 : s.toList.take 15 = sshHead
    · rw [if_pos h15] at h
      obtain ⟨ow, r, hl, how, hrr⟩ := parseOwnerRepo_some _ o n h
      refine ⟨ow, r, how, hrr, Or.inr ?_⟩
      have hlist : s.toList = sshHead ++ (ow ++ '/' :: r) := by
        conv_lhs => rw [← List.take_append_drop 15 s.toList]
        rw [h15, hl]
      exact (show s = (⟨s.toList⟩ : String) from rfl).trans
        (congrArg (fun t => (⟨t⟩ : String)) hlist)
    · rw [if_neg h15] at h
      cases h

/-- C6, counterexample: the claim fails for a repository name that itself
ends in `.git`.  The URL `https://github.com/o/a.git` is of the supported
shape `https://github.com/owner/name` with owner `o` and name `a.git`, yet
`ParseGitHubURL` extracts `(o, a)` — the regex strips one `.git` — so the
extraction with and without the suffix disagrees
(`.../o/a.git.git` yields `(o, a.git)`). -/
theorem C6_counterexampleDotGitName : ¬ ClaimC6 :=
  fun h =>
    absurd ((h.1 "o".toList "a.git".toList (by decide) (by decide)).1) (by decide)

/-- C6, amended: for every remote URL of one of the four supported shapes
whose repository name does not itself end in `.git`, `ParseGitHubURL`
extracts the same (owner, name) pair whether or not the `.git` suffix is
present; and for every URL of any other shape or host it returns the error
(empty) result with no partial extraction. -/
theorem C6_suffixInvariantAmended :
    (∀ o n : List Char, SegOK o → SegOK n → n.reverse.take 4 ≠ gitExt.reverse →
      parseGitHubURL (httpsOf o n) = some (⟨o⟩, ⟨n⟩) ∧
      parseGitHubURL (httpsOf o (n ++ gitExt)) = some (⟨o⟩, ⟨n⟩) ∧
      parseGitHubURL (sshOf o n) = some (⟨o⟩, ⟨n⟩) ∧
      parseGitHubURL (sshOf o (n ++ gitExt)) = some (⟨o⟩, ⟨n⟩)) ∧
    (∀ s : String, ¬ anyGitHubShape s → parseGitHubURL s = none) := by
  constructor
  · intro o n ho hn hng
    have hng2 : SegOK (n ++ gitExt) := by
      refine ⟨fun h => absurd (List.append_eq_nil.mp h).2 (by decide), ?_⟩
      intro hmem
      rcases List.mem_append.mp hmem with h1 | h1
      · exact hn.2 h1
      · exact absurd h1 (by decide)
    have hs1 : stripGitExt n = n := stripGitExt_of_notGit n hng
    have hs2 : stripGitExt (n ++ gitExt) = n := stripGitExt_append n hn.1
    refine ⟨?_, ?_, ?_, ?_⟩
    · rw [show httpsOf o n = ⟨httpsHead ++ (o ++ '/' :: n)⟩ from rfl,
        parseGitHubURL_mkHttps, parseOwnerRepo_eval o n ho hn, hs1]
    · rw [show httpsOf o (n ++ gitExt) = ⟨httpsHead ++ (o ++ '/' :: (n ++ gitExt))⟩
        from rfl, parseGitHubURL_mkHttps, parseOwnerRepo_eval o _ ho hng2, hs2]
    · rw [show sshOf o n = ⟨sshHead ++ (o ++ '/' :: n)⟩ from rfl,
        parseGitHubURL_mkSsh, parseOwnerRepo_eval o n ho hn, hs1]
    · rw [show sshOf o (n ++ gitExt) = ⟨sshHead ++ (o ++ '/' :: (n ++ gitExt))⟩
        from rfl, parseGitHubURL_mkSsh, parseOwnerRepo_eval o _ ho hng2, hs2]
  · intro s hns
    cases hp : parseGitHubURL s with
    | none => rfl
    | some pair => exact absurd (anyGitHubShape_of_parse s pair.1 pair.2
        (by rw [hp])) hns

/-- Witness for C6 (amended) at concrete inputs: the canonical URL pair of
this repository parses, and a one-character string of no supported shape
parses to the error result. -/
theorem C6_suffixInvariantAmended_witness :
    parseGitHubURL (httpsOf "onozaty".toList "reporg".toList) =
      some ("onozaty", "reporg") ∧
    parseGitHubURL "x" = none := by
  constructor
  · exact (C6_suffixInvariantAmended.1 "onozaty".toList "reporg".toList
      (by decide) (by decide) (by decide)).1
  · apply C6_suffixInvariantAmended.2
    rintro ⟨o, n, -, -, heq | heq⟩
    · have hlen : ("x" : String).toList.length = (httpsOf o n).toList.length := by
        rw [heq]
      have h1 : ("x" : String).toList.length = 1 := rfl
      have h2 : 20 ≤ (httpsOf o n).toList.length := by
        show 20 ≤ (httpsHead ++ (o ++ '/' :: n)).length
        rw [List.length_append, List.length_append, List.length_cons]
        have h19 : httpsHead.length = 19 := rfl
        omega
      omega
    · have hlen : ("x" : String).toList.length = (sshOf o n).toList.length := by
        rw [heq]
      have h1 : ("x" : String).toList.length = 1 := rfl
      have h2 : 16 ≤ (sshOf o n).toList.length := by
        show 16 ≤ (sshHead ++ (o ++ '/' :: n)).length
        rw [List.length_append, List.length_append, List.length_cons]
        have h15 : sshHead.length = 15 := rfl
        omega
      omega

/-! ## Deduplication lemmas and claims C7, C8 -/

lemma mem_specDedup (l : List String) (a : String) :
    a ∈ specDedup l ↔ a ∈ l := by
  induction l using specDedup.induct with
  | case1 => simp [specDedup]
  | case2 x xs ih =>
    rw [specDedup]
    by_cases hx : a = x
    · subst hx; simp
    · simp only [List.mem_cons, ih, List.mem_filter]
      constructor
      · rintro (rfl | ⟨h1, -⟩)
        · exact Or.inl rfl
        · exact Or.inr h1
      · rintro (rfl | h1)
        · exact Or.inl rfl
        · exact Or.inr ⟨h1, by simpa using hx⟩

lemma specDedup_nodup (l : List String) : (specDedup l).Nodup := by
  induction l using specDedup.induct with
  | case1 => simp [specDedup]
  | case2 x xs ih =>
    rw [specDedup]
    refine List.nodup_cons.mpr ⟨?_, ih⟩
    intro hmem
    have := List.mem_filter.mp ((mem_specDedup _ x).mp hmem)
    simpa using this.2

lemma indexOf_filter_lt (p : String → Bool) (xs : List String) :
    ∀ y z : String, y ∈ xs.filter p → z ∈ xs.filter p →
      (xs.filter p).indexOf y < (xs.filter p).indexOf z →
      xs.indexOf y < xs.indexOf z := by
  induction xs with
  | nil => intro y z hy hz h; simp at hy
  | cons a rest ih =>
    intro y z hy hz h
    by_cases hpa : p a
    · rw [List.filter_cons_of_pos hpa] at hy hz h
      by_cases hya : y = a
      · subst hya
        have hzy : z ≠ y := by
          rintro rfl
          simp at h
        rw [List.indexOf_cons_self, List.indexOf_cons_ne _ (Ne.symm hzy)]
        omega
      · by_cases hza : z = a
        · subst hza
          rw [List.indexOf_cons_self, List.indexOf_cons_ne _ (Ne.symm hya)] at h
          omega
        · rw [List.indexOf_cons_ne _ (Ne.symm hya),
            List.indexOf_cons_ne _ (Ne.symm hza)] at h
          have hy2 : y ∈ rest.filter p := by
            rcases List.mem_cons.mp hy with h1 | h1
            · exact absurd h1 hya
            · exact h1
          have hz2 : z ∈ rest.filter p := by
            rcases List.mem_cons.mp hz with h1 | h1
            · exact absurd h1 hza
            · exact h1
          have := ih y z hy2 hz2 (by omega)
          rw [List.indexOf_cons_ne _ (Ne.symm hya),
            List.indexOf_cons_ne _ (Ne.symm hza)]
          omega
    · rw [List.filter_cons_of_neg hpa] at hy hz h
      have hya : y ≠ a := by
        rintro rfl
        exact hpa (List.mem_filter.mp hy).2
      have hza : z ≠ a := by
        rintro rfl
        exact hpa (List.mem_filter.mp hz).2
      have := ih y z hy hz h
      rw [List.indexOf_cons_ne _ (Ne.symm hya),
        List.indexOf_cons_ne _ (Ne.symm hza)]
      omega

lemma specDedup_pairwise_indexOf (l : List String) :
    (specDedup l).Pairwise (fun a b => l.indexOf a < l.indexOf b) := by
  induction l using specDedup.induct with
  | case1 => simp [specDedup]
  | case2 x xs ih =>
    rw [specDedup]
    refine List.pairwise_cons.mpr ⟨?_, ?_⟩
    · intro b hb
      have hbf := (mem_specDedup _ b).mp hb
      have hbne : b ≠ x := by simpa using (List.mem_filter.mp hbf).2
      rw [List.indexOf_cons_self, List.indexOf_cons_ne _ (Ne.symm hbne)]
      omega
    · refine List.Pairwise.imp_of_mem ?_ ih
      intro a b ha hb hlt
      have haf := (mem_specDedup _ a).mp ha
      have hbf := (mem_specDedup _ b).mp hb
      have hane : a ≠ x := by simpa using (List.mem_filter.mp haf).2
      have hbne : b ≠ x := by simpa using (List.mem_filter.mp hbf).2
      have := indexOf_filter_lt _ xs a b haf hbf hlt
      rw [List.indexOf_cons_ne _ (Ne.symm hane),
        List.indexOf_cons_ne _ (Ne.symm hbne)]
      omega

lemma dedupePure_eq_specDedup (m : List String) :
    ∀ seen : List String,
      dedupePure seen m = specDedup (m.filter (fun y => !decide (y ∈ seen))) := by
  induction m with
  | nil => intro seen; simp [dedupePure, specDedup]
  | cons a ms ih =>
    intro seen
    by_cases hm : a ∈ seen
    · rw [show dedupePure seen (a :: ms) = dedupePure seen ms from by
        simp [dedupePure, hm]]
      rw [ih seen]
      rw [show (a :: ms).filter (fun y => !decide (y ∈ seen)) =
          ms.filter (fun y => !decide (y ∈ seen)) from by
        simp [List.filter_cons, hm]]
    · rw [show dedupePure seen (a :: ms) = a :: dedupePure (a :: seen) ms from by
        simp [dedupePure, hm]]
      rw [ih (a :: seen)]
      rw [show (a :: ms).filter (fun y => !decide (y ∈ seen)) =
          a :: ms.filter (fun y => !decide (y ∈ seen)) from by
        simp [List.filter_cons, hm]]
      rw [specDedup]
      congr 1
      rw [List.filter_filter]
      congr 1
      apply List.filter_congr
      intro x hx
      by_cases h1 : x = a <;> by_cases h2 : x ∈ seen <;> simp [h1, h2]

lemma dedupeGo_eq (valid : String → Bool) (canon : String → String) :
    ∀ (ps seen unique : List String), (∀ p ∈ ps, valid p = true) →
      dedupeGo valid canon ps seen unique =
        .ok (unique ++ dedupePure seen (ps.map canon)) := by
  intro ps
  induction ps with
  | nil => intro seen unique _; simp [dedupeGo, dedupePure]
  | cons p ps ih =>
    intro seen unique hall
    have hv : valid p = true := hall p (List.mem_cons_self p ps)
    have hall2 : ∀ q ∈ ps, valid q = true :=
      fun q hq => hall q (List.mem_cons_of_mem p hq)
    by_cases hm : canon p ∈ seen
    · rw [show dedupeGo valid canon (p :: ps) seen unique =
          dedupeGo valid canon ps seen unique from by
        simp [dedupeGo, hv, hm]]
      rw [ih seen unique hall2]
      rw [show (List.map canon (p :: ps)) = canon p :: List.map canon ps from rfl]
      rw [show dedupePure seen (canon p :: List.map canon ps) =
          dedupePure seen (List.map canon ps) from by simp [dedupePure, hm]]
    · rw [show dedupeGo valid canon (p :: ps) seen unique =
          dedupeGo valid canon ps (canon p :: seen) (unique ++ [canon p]) from by
        simp [dedupeGo, hv, hm]]
      rw [ih (canon p :: seen) (unique ++ [canon p]) hall2]
      rw [show (List.map canon (p :: ps)) = canon p :: List.map canon ps from rfl]
      rw [show dedupePure seen (canon p :: List.map canon ps) =
          canon p :: dedupePure (canon p :: seen) (List.map canon ps) from by
        simp [dedupePure, hm]]
      rw [List.append_assoc]
      rfl

lemma deduplicateRepoPaths_eq (valid : String → Bool) (canon : String → String)
    (paths : List String) (hall : ∀ p ∈ paths, valid p = true) :
    deduplicateRepoPaths valid canon paths =
      .ok (specDedup (paths.map canon)) := by
  unfold deduplicateRepoPaths
  rw [dedupeGo_eq valid canon paths [] [] hall]
  rw [dedupePure_eq_specDedup]
  rw [show (List.map canon paths).filter (fun y => !decide (y ∈ ([] : List String)))
      = List.map canon paths from by simp]
  rfl

/-- C7: when every input path is a valid repository root,
`DeduplicateRepoPaths` succeeds with a list equal to the first-occurrence
deduplication of the canonicalized inputs: it has no duplicates, contains
exactly the distinct canonical paths, its length is their number, and its
elements appear in strictly increasing order of first occurrence among the
canonicalized inputs.  Canonicalization is `filepath.Abs` against the
working directory `cwd`. -/
theorem C7_dedupFirstOccurrence (valid : String → Bool) (cwd : String)
    (paths : List String) (hall : ∀ p ∈ paths, valid p = true) :
    ∃ r, deduplicateRepoPaths valid (unixAbs cwd) paths = .ok r ∧
      r = specDedup (paths.map (unixAbs cwd)) ∧
      r.Nodup ∧
      (∀ c, c ∈ r ↔ c ∈ paths.map (unixAbs cwd)) ∧
      r.length = (paths.map (unixAbs cwd)).toFinset.card ∧
      r.Pairwise (fun a b =>
        (paths.map (unixAbs cwd)).indexOf a < (paths.map (unixAbs cwd)).indexOf b) := by
  refine ⟨specDedup (paths.map (unixAbs cwd)),
    deduplicateRepoPaths_eq _ _ _ hall, rfl, specDedup_nodup _,
    fun c => mem_specDedup _ c, ?_, specDedup_pairwise_indexOf _⟩
  have h1 := List.toFinset_card_of_nodup (specDedup_nodup (paths.map (unixAbs cwd)))
  have h2 : (specDedup (paths.map (unixAbs cwd))).toFinset =
      (paths.map (unixAbs cwd)).toFinset := by
    ext c
    simp [mem_specDedup]
  rw [← h1, h2]

/-- Witness for C7 at a concrete input: three valid roots with one
duplicate collapse to two entries in first-occurrence order. -/
theorem C7_dedupFirstOccurrence_witness :
    ∃ r, deduplicateRepoPaths (fun _ => true) (unixAbs "/") ["/a", "/b", "/a"] =
        .ok r ∧
      r = specDedup (["/a", "/b", "/a"].map (unixAbs "/")) ∧
      r.Nodup ∧
      (∀ c, c ∈ r ↔ c ∈ ["/a", "/b", "/a"].map (unixAbs "/")) ∧
      r.length = (["/a", "/b", "/a"].map (unixAbs "/")).toFinset.card ∧
      r.Pairwise (fun a b =>
        (["/a", "/b", "/a"].map (unixAbs "/")).indexOf a <
          (["/a", "/b", "/a"].map (unixAbs "/")).indexOf b) :=
  C7_dedupFirstOccurrence (fun _ => true) "/" ["/a", "/b", "/a"] (by decide)

end Reporg
